import Mathlib

set_option maxRecDepth 10000

/-!
Verification development for the ct-scout Certificate Transparency monitor.

The Rust sources are shallowly embedded: byte strings (`&str` in the source,
always ASCII in the relevant code paths) become lists of byte values,
`u32`/`u64` arithmetic becomes `Nat` with an explicit `% 2 ^ 32` / `% 2 ^ 64`
wherever the source arithmetic can overflow (Rust release builds wrap), and
stateful loops become structurally recursive functions threading their state.
-/

/-! ## Byte strings (`src/watchlist.rs` helpers) -/

/-- A Rust string slice, modelled as its byte sequence. -/
abbrev RStr := List Nat

/-- `u8::to_ascii_lowercase`: bytes 65..90 (`A`..`Z`) are shifted by 32. -/
def lowerB (b : Nat) : Nat := if 65 ≤ b ∧ b ≤ 90 then b + 32 else b

/-- `str::to_ascii_lowercase`. -/
def lowerRS (s : RStr) : RStr := s.map lowerB

/-- Byte-string literal helper: the byte sequence of an ASCII string. -/
def str (s : String) : RStr := s.data.map Char.toNat

/-- `str::ends_with`. -/
def rsEndsWith (s suf : RStr) : Bool := suf.isSuffixOf s

/-- `str::strip_prefix` (`pre` is the leading pattern being removed). -/
def rsStrip (pre s : RStr) : Option RStr :=
  if pre.isPrefixOf s then some (s.drop pre.length) else none

/-- `str::eq_ignore_ascii_case`. -/
def eqIgnoreAsciiCase (a b : RStr) : Bool := lowerRS a == lowerRS b

/-! ## Watchlist (`src/watchlist.rs`) -/

/-- `std::net::IpAddr`; its internals are never consulted by the claims. -/
structure IpAddr where
  bytes : List Nat
deriving DecidableEq

/-- `ipnet::IpNet`; its internals are never consulted by the claims. -/
structure IpNet where
  addr : IpAddr
  prefixLen : Nat
deriving DecidableEq

/-- `watchlist::Program`. -/
structure Program where
  name : String
  domains : List RStr
  hosts : List RStr
  ips : List IpAddr
  cidrs : List IpNet
deriving DecidableEq

/-- `watchlist::Watchlist`. -/
structure Watchlist where
  global_domains : List RStr
  global_hosts : List RStr
  global_ips : List IpAddr
  global_cidrs : List IpNet
  programs : List Program
deriving DecidableEq

/-- `Watchlist::matches_pattern` (src/watchlist.rs:108-125).  `[42, 46]` is
the byte sequence of the wildcard marker `*.` and `46` is the dot. -/
def Watchlist.matches_pattern (host pattern : RStr) : Bool :=
  let pl := lowerRS pattern
  match rsStrip [42, 46] pl with
  | some suf => rsEndsWith host (46 :: suf)
  | none =>
    match rsStrip [46] pl with
    | some suf => host == suf || rsEndsWith host (46 :: suf)
    | none => host == pl || rsEndsWith host (46 :: pl)

/-- The per-program check shared by `matches_domain` and `program_for_domain`:
an exact (case-insensitive) host match or a domain-pattern match. -/
def progHostOrDomainMatch (host : RStr) (p : Program) : Bool :=
  p.hosts.any (fun h => eqIgnoreAsciiCase h host) ||
  p.domains.any (fun pat => Watchlist.matches_pattern host pat)

/-- `Watchlist::matches_domain` (src/watchlist.rs:70-101). -/
def Watchlist.matches_domain (wl : Watchlist) (domain : RStr) : Bool :=
  let host := lowerRS domain
  wl.global_hosts.any (fun h => eqIgnoreAsciiCase h host) ||
  wl.global_domains.any (fun pat => Watchlist.matches_pattern host pat) ||
  wl.programs.any (fun p => progHostOrDomainMatch host p)

/-- `Watchlist::program_for_domain` (src/watchlist.rs:127-143): the first
program (in insertion order) whose hosts or domain patterns match. -/
def Watchlist.program_for_domain (wl : Watchlist) (domain : RStr) : Option Program :=
  let host := lowerRS domain
  wl.programs.find? (fun p => progHostOrDomainMatch host p)

/-! ### Basic facts about ASCII lowering -/

theorem lowerB_idem (b : Nat) : lowerB (lowerB b) = lowerB b := by
  simp only [lowerB]
  split
  · split <;> omega
  · rfl

theorem lowerRS_idem (s : RStr) : lowerRS (lowerRS s) = lowerRS s := by
  simp only [lowerRS, List.map_map]
  exact List.map_congr_left fun b _ => lowerB_idem b

theorem lowerB_eq_42 (b : Nat) : lowerB b = 42 ↔ b = 42 := by
  simp only [lowerB]
  split <;> omega

theorem lowerB_eq_46 (b : Nat) : lowerB b = 46 ↔ b = 46 := by
  simp only [lowerB]
  split <;> omega

theorem lowerB_star : lowerB 42 = 42 := by decide

theorem lowerB_dot : lowerB 46 = 46 := by decide

theorem lowerRS_cons (a : Nat) (s : RStr) : lowerRS (a :: s) = lowerB a :: lowerRS s := rfl

/-! ### Reduction lemmas for the two strip operations in `matches_pattern` -/

theorem rsStrip_wild_hit (X : RStr) : rsStrip [42, 46] (42 :: 46 :: X) = some X := by
  simp [rsStrip, List.isPrefixOf]

theorem rsStrip_dot_hit (X : RStr) : rsStrip [46] (46 :: X) = some X := by
  simp [rsStrip, List.isPrefixOf]

theorem rsStrip_wild_miss_head (a : Nat) (X : RStr) (ha : a ≠ 42) :
    rsStrip [42, 46] (a :: X) = none := by
  have h42 : (42 == a) = false := beq_eq_false_iff_ne.mpr (Ne.symm ha)
  simp [rsStrip, List.isPrefixOf, h42]

theorem rsStrip_wild_miss_single : rsStrip [42, 46] [42] = none := by decide

theorem rsStrip_wild_miss_snd (b : Nat) (X : RStr) (hb : b ≠ 46) :
    rsStrip [42, 46] (42 :: b :: X) = none := by
  have h46 : (46 == b) = false := beq_eq_false_iff_ne.mpr (Ne.symm hb)
  simp [rsStrip, List.isPrefixOf, h46]

theorem rsStrip_dot_miss (a : Nat) (X : RStr) (ha : a ≠ 46) :
    rsStrip [46] (a :: X) = none := by
  have h46 : (46 == a) = false := beq_eq_false_iff_ne.mpr (Ne.symm ha)
  simp [rsStrip, List.isPrefixOf, h46]

/-- C3 (amended): the §4.6 pattern table, with the two corrections forced by
the code: suffix comparisons are against the lowercased pattern, and only the
pattern side of `matches_pattern` is case-insensitive (callers pass an
already-lowercased host). Parts: (1) wildcard `*.X`; (2) dot `.X`; (3) plain
`X`; (4) ASCII case changes of the pattern never change the result. -/
theorem matches_pattern_table_amended :
    (∀ h X : RStr,
      Watchlist.matches_pattern h (42 :: 46 :: X) = rsEndsWith h (46 :: lowerRS X)) ∧
    (∀ h X : RStr,
      Watchlist.matches_pattern h (46 :: X)
        = (h == lowerRS X || rsEndsWith h (46 :: lowerRS X))) ∧
    (∀ h p : RStr, (∀ t, p ≠ 42 :: 46 :: t) → (∀ t, p ≠ 46 :: t) →
      Watchlist.matches_pattern h p
        = (h == lowerRS p || rsEndsWith h (46 :: lowerRS p))) ∧
    (∀ h p q : RStr, lowerRS p = lowerRS q →
      Watchlist.matches_pattern h p = Watchlist.matches_pattern h q) := by
  refine ⟨?_, ?_, ?_, ?_⟩
  · intro h X
    simp only [Watchlist.matches_pattern, lowerRS_cons, lowerB_star, lowerB_dot,
      rsStrip_wild_hit]
  · intro h X
    simp only [Watchlist.matches_pattern, lowerRS_cons, lowerB_dot,
      rsStrip_wild_miss_head 46 _ (by omega), rsStrip_dot_hit]
  · intro h p hw hd
    rcases p with _ | ⟨a, t⟩
    · simp [Watchlist.matches_pattern, rsStrip, List.isPrefixOf, lowerRS]
    · have ha46 : a ≠ 46 := fun h46 => hd t (by rw [h46])
      have hla46 : lowerB a ≠ 46 := fun hc => ha46 ((lowerB_eq_46 a).mp hc)
      by_cases ha42 : a = 42
      · subst ha42
        rcases t with _ | ⟨b, t2⟩
        · simp only [Watchlist.matches_pattern, lowerRS_cons, lowerB_star]
          simp [rsStrip_wild_miss_single, rsStrip_dot_miss 42 _ (by omega), lowerRS]
        · have hb46 : b ≠ 46 := fun hb => hw t2 (by rw [hb])
          have hlb46 : lowerB b ≠ 46 := fun hc => hb46 ((lowerB_eq_46 b).mp hc)
          simp only [Watchlist.matches_pattern, lowerRS_cons, lowerB_star,
            rsStrip_wild_miss_snd _ _ hlb46, rsStrip_dot_miss 42 _ (by omega)]
      · have hla42 : lowerB a ≠ 42 := fun hc => ha42 ((lowerB_eq_42 a).mp hc)
        simp only [Watchlist.matches_pattern, lowerRS_cons,
          rsStrip_wild_miss_head _ _ hla42, rsStrip_dot_miss _ _ hla46]
  · intro h p q hpq
    simp only [Watchlist.matches_pattern, hpq]

/-- C3 counterexample: `matches_pattern` is not host-case-insensitive — the
same pattern accepts the lowercase form of a host and rejects its uppercase
form, though the two hosts agree up to ASCII case. -/
theorem matches_pattern_host_case_cex :
    Watchlist.matches_pattern (str "WWW.IBM.COM") (str "*.ibm.com") = false ∧
    Watchlist.matches_pattern (str "www.ibm.com") (str "*.ibm.com") = true ∧
    lowerRS (str "WWW.IBM.COM") = lowerRS (str "www.ibm.com") := by decide

/-- Witness for C3: each part of the amended table theorem applied at a
concrete input. -/
theorem matches_pattern_table_amended_witness :
    Watchlist.matches_pattern (str "a.ibm.com") (42 :: 46 :: str "ibm.com")
      = rsEndsWith (str "a.ibm.com") (46 :: lowerRS (str "ibm.com")) ∧
    Watchlist.matches_pattern (str "ibm.com") (46 :: str "ibm.com")
      = (str "ibm.com" == lowerRS (str "ibm.com")
          || rsEndsWith (str "ibm.com") (46 :: lowerRS (str "ibm.com"))) ∧
    Watchlist.matches_pattern (str "a.x.c") [120, 46, 99]
      = (str "a.x.c" == lowerRS [120, 46, 99]
          || rsEndsWith (str "a.x.c") (46 :: lowerRS [120, 46, 99])) ∧
    Watchlist.matches_pattern (str "www.ibm.com") (str "*.IBM.COM")
      = Watchlist.matches_pattern (str "www.ibm.com") (str "*.ibm.com") := by
  refine ⟨matches_pattern_table_amended.1 _ _, matches_pattern_table_amended.2.1 _ _, ?_, ?_⟩
  · exact matches_pattern_table_amended.2.2.1 _ _
      (by intro t hteq; simp [str] at hteq) (by intro t hteq; simp [str] at hteq)
  · exact matches_pattern_table_amended.2.2.2 _ _ _ (by decide)

/-- C10: if `program_for_domain` attributes a domain to some program, then
`matches_domain` accepts that domain — a program-level host or pattern match
always implies an overall watchlist match. -/
theorem program_match_implies_domain_match (wl : Watchlist) (d : RStr) (p : Program)
    (hp : wl.program_for_domain d = some p) : wl.matches_domain d = true := by
  simp only [Watchlist.program_for_domain] at hp
  have hmem : p ∈ wl.programs := List.mem_of_find?_eq_some hp
  have hpm : progHostOrDomainMatch (lowerRS d) p = true := List.find?_some hp
  have hany : wl.programs.any (fun q => progHostOrDomainMatch (lowerRS d) q) = true :=
    List.any_eq_true.mpr ⟨p, hmem, hpm⟩
  simp [Watchlist.matches_domain, hany]

/-- Witness for C10 at a one-program watchlist. -/
theorem program_match_implies_domain_match_witness :
    Watchlist.matches_domain
      ⟨[], [], [], [], [⟨"IBM", [str ".ibm.com"], [], [], []⟩]⟩ (str "x.ibm.com") = true :=
  program_match_implies_domain_match _ _ ⟨"IBM", [str ".ibm.com"], [], [], []⟩ (by decide)

/-! ## Certificate records (`src/types.rs`) and dedupe (`src/dedupe.rs`) -/

/-- `types::LeafCert`. -/
structure LeafCert where
  not_before : Option Nat
  not_after : Option Nat
  fingerprint : Option String
  issuer : Option String

/-- `types::CertData`.  `seen_unix` is an `f64` wall-clock stamp; no claim
inspects it. -/
structure CertData where
  all_domains : Option (List String)
  cert_index : Option Nat
  seen_unix : Option Float
  leaf_cert : Option LeafCert
  is_precert : Bool
  ct_log_url : Option String

/-- The key computed by `Dedupe::should_emit` (src/dedupe.rs:22-32); `none`
models the code's early `return true` branches (dedupe impossible). -/
def dedupeKey (data : CertData) : Option String :=
  match data.cert_index with
  | some idx => some ("idx:" ++ toString idx)
  | none =>
    match data.leaf_cert with
    | some leaf =>
      match leaf.fingerprint with
      | some fp => some ("fp:" ++ fp)
      | none => none
    | none => none

/-- `Dedupe::should_emit` (src/dedupe.rs:20-41): the guarded
`HashSet<String>` is the `seen` list; returns the emit decision and the
updated set (atomic contains-then-insert). -/
def Dedupe.should_emit (seen : List String) (data : CertData) : Bool × List String :=
  match dedupeKey data with
  | none => (true, seen)
  | some key => if seen.contains key then (false, seen) else (true, key :: seen)

/-- The consumer's dedupe pass over a stream of records in queue order
(src/ct_log/coordinator.rs:154-157): the per-record emit decisions. -/
def runDedupe (seen : List String) : List CertData → List Bool
  | [] => []
  | r :: rs => (Dedupe.should_emit seen r).1 :: runDedupe (Dedupe.should_emit seen r).2 rs

/-- Placeholder record used as the `getD` default. -/
def dfltCert : CertData := ⟨none, none, none, none, false, none⟩

theorem should_emit_seen_mono (seen : List String) (r : CertData) (k : String)
    (hk : k ∈ seen) : k ∈ (Dedupe.should_emit seen r).2 := by
  unfold Dedupe.should_emit
  cases dedupeKey r with
  | none => exact hk
  | some key =>
    by_cases hm : key ∈ seen
    · simpa [hm] using hk
    · simp [hm, hk]

theorem runDedupe_suppressed (rs : List CertData) (seen : List String) (k : String)
    (hk : k ∈ seen) (j : Nat) (hj : j < rs.length)
    (hkey : dedupeKey (rs.getD j dfltCert) = some k) :
    (runDedupe seen rs).getD j false = false := by
  induction rs generalizing seen j with
  | nil => simp at hj
  | cons r rs ih =>
    cases j with
    | zero =>
      simp only [List.getD_cons_zero] at hkey
      simp [runDedupe, Dedupe.should_emit, hkey, hk]
    | succ j' =>
      simp only [List.getD_cons_succ] at hkey ⊢
      simp only [runDedupe, List.getD_cons_succ]
      exact ih (Dedupe.should_emit seen r).2 (should_emit_seen_mono seen r k hk) j'
        (by simpa using hj) hkey

/-- C1 (amended): the dedupe key is `idx:<cert_index>` when the index is
known (the log URL is NOT part of the key), else `fp:<fingerprint>` when the
fingerprint is known, else the record is always emitted; and over any stream
of records, two records carrying the same key are never both emitted, so each
certificate yields at most one match. -/
theorem dedupe_key_and_at_most_once :
    (∀ (data : CertData) (idx : Nat), data.cert_index = some idx →
      dedupeKey data = some ("idx:" ++ toString idx)) ∧
    (∀ (data : CertData) (leaf : LeafCert) (fp : String), data.cert_index = none →
      data.leaf_cert = some leaf → leaf.fingerprint = some fp →
      dedupeKey data = some ("fp:" ++ fp)) ∧
    (∀ (seen : List String) (data : CertData), dedupeKey data = none →
      (Dedupe.should_emit seen data).1 = true) ∧
    (∀ (seen : List String) (rs : List CertData) (i j : Nat) (k : String),
      i < j → j < rs.length →
      dedupeKey (rs.getD i dfltCert) = some k →
      dedupeKey (rs.getD j dfltCert) = some k →
      (runDedupe seen rs).getD i false = true →
      (runDedupe seen rs).getD j false = false) := by
  refine ⟨?_, ?_, ?_, ?_⟩
  · intro data idx h
    simp [dedupeKey, h]
  · intro data leaf fp h1 h2 h3
    simp [dedupeKey, h1, h2, h3]
  · intro seen data h
    simp [Dedupe.should_emit, h]
  · intro seen rs i j k hij hj hki hkj hflag
    induction rs generalizing seen i j with
    | nil => simp at hj
    | cons r rs ih =>
      cases i with
      | zero =>
        obtain ⟨j', rfl⟩ : ∃ j', j = j' + 1 := ⟨j - 1, by omega⟩
        simp only [List.getD_cons_zero] at hki
        simp only [List.getD_cons_succ] at hkj
        simp only [runDedupe, List.getD_cons_zero] at hflag
        simp only [runDedupe, List.getD_cons_succ]
        have hseen : k ∈ (Dedupe.should_emit seen r).2 := by
          simp only [Dedupe.should_emit, hki] at hflag ⊢
          by_cases hm : k ∈ seen
          · simp [hm] at hflag
          · simp [hm]
        exact runDedupe_suppressed rs _ k hseen j' (by simpa using hj) hkj
      | succ i' =>
        obtain ⟨j', rfl⟩ : ∃ j', j = j' + 1 := ⟨j - 1, by omega⟩
        simp only [List.getD_cons_succ] at hki hkj
        simp only [runDedupe, List.getD_cons_succ] at hflag ⊢
        exact ih _ i' j' (by omega) (by simpa using hj) hki hkj hflag

/-- C1 counterexample: for a record whose cert_index and log URL are both
known, the computed key is `idx:100`, not the claimed
`idx:https://log.example:100` — the log URL is omitted. -/
theorem dedupe_key_omits_log_url_cex :
    dedupeKey
      ⟨some ["a.example"], some 100, none, none, false, some "https://log.example"⟩
      = some "idx:100" ∧
    "idx:100" ≠ "idx:" ++ "https://log.example" ++ ":" ++ "100" := by
  constructor
  · rfl
  · decide

/-- Witness for C1: two records from different logs sharing cert_index 100;
the first is emitted and the second suppressed. -/
theorem dedupe_key_and_at_most_once_witness :
    dedupeKey ⟨some ["a.example"], some 100, none, none, false, some "https://a"⟩
      = some ("idx:" ++ toString 100) ∧
    (runDedupe []
      [⟨some ["a.example"], some 100, none, none, false, some "https://a"⟩,
       ⟨some ["b.example"], some 100, none, none, false, some "https://b"⟩]).getD 1 false
      = false := by
  constructor
  · exact dedupe_key_and_at_most_once.1 _ 100 rfl
  · exact dedupe_key_and_at_most_once.2.2.2 [] _ 0 1 "idx:100" (by decide) (by decide)
      (by rfl) (by rfl) (by rfl)

/-! ## Health tracker (`src/ct_log/health.rs`)

The tracker's `HashMap` keeps one independent `LogHealthInfo` per log URL
(`health.entry(url).or_insert_with(new)`), so the per-URL evolution is
modelled directly on one `LogHealthInfo`, starting from `new`.  `Instant`
values are caller-supplied second counts.  `failure_count` is a `u32` and the
backoff product a `u64`; both are reduced modulo their width where the source
arithmetic can wrap (Rust release semantics). -/

inductive LogHealth where
  | healthy
  | degraded
  | failed
deriving DecidableEq

/-- `health::LogHealthInfo`. -/
structure LogHealthInfo where
  status : LogHealth
  failure_count : Nat
  last_failure : Option Nat
  last_success : Option Nat
  last_error : Option String
  current_backoff : Nat
deriving DecidableEq

/-- `LogHealthInfo::new` (src/ct_log/health.rs:37-46). -/
def LogHealthInfo.new : LogHealthInfo :=
  { status := .healthy, failure_count := 0, last_failure := none, last_success := none,
    last_error := none, current_backoff := 0 }

/-- `LogHealthInfo::next_backoff` (src/ct_log/health.rs:50-59):
`60 * 2_u64.pow(failure_count.saturating_sub(1))` capped at 3600, with the
`u64` power and product wrapping modulo `2^64`. -/
def LogHealthInfo.next_backoff (info : LogHealthInfo) : Nat :=
  if info.failure_count = 0 then 0
  else
    min ((60 * (2 ^ (info.failure_count - 1) % 2 ^ 64)) % 2 ^ 64) 3600

/-- `LogHealthTracker::record_success` (src/ct_log/health.rs:83-100). -/
def LogHealthTracker.record_success (now : Nat) (info : LogHealthInfo) : LogHealthInfo :=
  { info with
    status := .healthy
    failure_count := 0
    last_success := some now
    current_backoff := 0 }

/-- `LogHealthTracker::record_failure` (src/ct_log/health.rs:103-138) for a
tracker with failure threshold `T`: bump the (u32) counter, stamp the
failure, derive the status from the new counter, then recompute the backoff
from the new counter. -/
def LogHealthTracker.record_failure (T : Nat) (now : Nat) (err : String)
    (info : LogHealthInfo) : LogHealthInfo :=
  let fc := (info.failure_count + 1) % 2 ^ 32
  let info1 := { info with
    failure_count := fc
    last_failure := some now
    last_error := some err
    status := if T ≤ fc then LogHealth.failed else LogHealth.degraded }
  { info1 with current_backoff := info1.next_backoff }

/-- One recorded observation on a log. -/
inductive HealthEvent where
  | success (now : Nat)
  | failure (err : String) (now : Nat)

/-- Apply one event through the tracker with threshold `T`. -/
def applyEvent (T : Nat) (info : LogHealthInfo) : HealthEvent → LogHealthInfo
  | .success now => LogHealthTracker.record_success now info
  | .failure err now => LogHealthTracker.record_failure T now err info

/-- The per-URL health state after a sequence of recorded events. -/
def runEvents (T : Nat) (evs : List HealthEvent) : LogHealthInfo :=
  evs.foldl (applyEvent T) LogHealthInfo.new

/-- Length of the trailing run of failures (the mathematical
consecutive-failure count, without the u32 wrap). -/
def trailingFailures (evs : List HealthEvent) : Nat :=
  evs.foldl (fun acc e => match e with | .failure _ _ => acc + 1 | .success _ => 0) 0

/-- The status the spec derives from a consecutive-failure count. -/
def derivedStatus (T c : Nat) : LogHealth :=
  if c = 0 then .healthy else if c < T then .degraded else .failed

theorem trailingFailures_append_failure (evs : List HealthEvent) (err : String) (now : Nat) :
    trailingFailures (evs ++ [.failure err now]) = trailingFailures evs + 1 := by
  simp [trailingFailures, List.foldl_append]

theorem trailingFailures_append_success (evs : List HealthEvent) (now : Nat) :
    trailingFailures (evs ++ [.success now]) = 0 := by
  simp [trailingFailures, List.foldl_append]

theorem runEvents_append (T : Nat) (evs : List HealthEvent) (e : HealthEvent) :
    runEvents T (evs ++ [e]) = applyEvent T (runEvents T evs) e := by
  simp [runEvents, List.foldl_append]

/-- C4: evaluation of the code at the failing input.  After 63 consecutive
recorded failures the stored backoff is 0 seconds, while the claimed law
`min(60 * 2^(k-1), 3600)` gives 3600: the u64 product `60 * 2^62` wraps to 0
in a release build (`60 * 2^62 = 15 * 2^64 ≡ 0 (mod 2^64)`). -/
theorem backoff_overflow_at_63 :
    (runEvents 3 (List.replicate 63 (.failure "e" 0))).failure_count = 63 ∧
    (runEvents 3 (List.replicate 63 (.failure "e" 0))).current_backoff = 0 ∧
    min (60 * 2 ^ (63 - 1)) 3600 = 3600 := by decide

theorem runEvents_replicate_failure_count (T : Nat) (err : String) (now n : Nat) :
    (runEvents T (List.replicate n (HealthEvent.failure err now))).failure_count
      = n % 2 ^ 32 := by
  induction n with
  | zero => simp [runEvents, LogHealthInfo.new]
  | succ n ih =>
    rw [List.replicate_succ', runEvents_append]
    simp only [applyEvent, LogHealthTracker.record_failure]
    rw [ih]
    have h232 : (2 : Nat) ^ 32 = 4294967296 := by norm_num
    rw [h232]
    omega

/-- C8 counterexample: after 2^32 consecutive `record_failure` calls the u32
counter wraps to 0 while the stored status is Degraded; the claimed
derivation says a count of 0 gives Healthy. -/
theorem health_status_wrap_cex :
    (runEvents 3 (List.replicate (2 ^ 32) (HealthEvent.failure "e" 0))).failure_count = 0 ∧
    (runEvents 3 (List.replicate (2 ^ 32) (HealthEvent.failure "e" 0))).status
      = LogHealth.degraded ∧
    derivedStatus 3 0 = LogHealth.healthy := by
  refine ⟨?_, ?_, by decide⟩
  · rw [runEvents_replicate_failure_count]
    exact Nat.mod_self _
  · have hsplit : (2 ^ 32 : Nat) = (2 ^ 32 - 1) + 1 := by norm_num
    rw [hsplit, List.replicate_succ', runEvents_append]
    simp only [applyEvent, LogHealthTracker.record_failure]
    rw [runEvents_replicate_failure_count]
    have h232 : (2 : Nat) ^ 32 = 4294967296 := by norm_num
    rw [h232]
    norm_num

/-- C8 (amended): as long as the trailing run of consecutive failures is
shorter than 2^32 (the u32 counter's range), the stored status derives from
the stored consecutive-failure count exactly as claimed (0 gives Healthy,
strictly between 0 and T gives Degraded, at least T gives Failed), and a
recorded success always resets the count to 0, the status to Healthy and the
backoff to zero. -/
theorem health_status_derivation_amended :
    (∀ (T : Nat) (evs : List HealthEvent), trailingFailures evs < 2 ^ 32 →
      (runEvents T evs).failure_count = trailingFailures evs ∧
      (runEvents T evs).status = derivedStatus T (runEvents T evs).failure_count) ∧
    (∀ (T : Nat) (evs : List HealthEvent) (now : Nat),
      (runEvents T (evs ++ [.success now])).failure_count = 0 ∧
      (runEvents T (evs ++ [.success now])).status = LogHealth.healthy ∧
      (runEvents T (evs ++ [.success now])).current_backoff = 0) := by
  constructor
  · intro T evs
    induction evs using List.reverseRecOn with
    | nil =>
      intro _
      constructor
      · simp [runEvents, LogHealthInfo.new, trailingFailures]
      · simp [runEvents, LogHealthInfo.new, trailingFailures, derivedStatus]
    | append_singleton evs e ih =>
      intro hbound
      cases e with
      | success now =>
        rw [runEvents_append, trailingFailures_append_success]
        simp [applyEvent, LogHealthTracker.record_success, derivedStatus]
      | failure err now =>
        rw [trailingFailures_append_failure] at hbound ⊢
        obtain ⟨ihc, _⟩ := ih (by omega)
        rw [runEvents_append]
        simp only [applyEvent, LogHealthTracker.record_failure, ihc]
        have hfc : (trailingFailures evs + 1) % 2 ^ 32 = trailingFailures evs + 1 :=
          Nat.mod_eq_of_lt hbound
        rw [hfc]
        refine ⟨rfl, ?_⟩
        simp only [derivedStatus]
        by_cases hT : T ≤ trailingFailures evs + 1
        · rw [if_pos hT, if_neg (by omega), if_neg (by omega)]
        · rw [if_neg hT, if_neg (by omega), if_pos (by omega)]
  · intro T evs now
    rw [runEvents_append]
    simp [applyEvent, LogHealthTracker.record_success]

/-- Witness for C8: the amended derivation applied after two failures with
threshold 3, and the success reset applied after one failure. -/
theorem health_status_derivation_amended_witness :
    (runEvents 3 [.failure "e" 1, .failure "e" 2]).status
      = derivedStatus 3 (runEvents 3 [.failure "e" 1, .failure "e" 2]).failure_count ∧
    (runEvents 3 ([.failure "e" 1] ++ [.success 2])).current_backoff = 0 := by
  constructor
  · exact (health_status_derivation_amended.1 3 _ (by decide)).2
  · exact (health_status_derivation_amended.2 3 [.failure "e" 1] 2).2.2

/-! ## Log poller (`src/ct_log/monitor.rs`)

`poll_once` is embedded with the network responses as inputs: the reported
`tree_size` of the STH, the batch of entries `get-entries` returned, and the
per-index outcome of the queue `send` (`false` models a closed channel).
One fetched entry is represented by the outcome `CertificateParser::
parse_log_entry` delivers for it — the parsed fields the loop consumes, or a
decode failure; the DER parsing itself is not consulted by any claim, which
all quantify over arbitrary batches of outcomes. -/

/-- The fields of `cert_parser::ParsedCertificate` used by the monitor loop
(src/ct_log/monitor.rs:175-196). -/
structure ParsedCert where
  domains : List String
  not_before : Option Nat
  not_after : Option Nat
  fingerprint : String
  issuer : Option String
  is_precert : Bool

/-- Parse outcome of one `(leaf_input, extra_data)` wire entry. -/
inductive EntryResult where
  | ok (cert : ParsedCert)
  | err

/-- Outcome of the entry loop (src/ct_log/monitor.rs:157-212): the
`update_index` arguments issued in order, the entry indices accepted by the
queue in order, the per-log state entry after the loop, and whether the loop
completed (`false`: a send failed and `poll_once` returns `Err`). -/
structure BatchResult where
  updates : List Nat
  sent : List Nat
  cursor : Option Nat
  ok : Bool

/-- The entry loop of `poll_once` (src/ct_log/monitor.rs:157-212): entries
are enumerated from `offset`; a decode failure or an empty domain list skips
the entry (`continue`, no state update); otherwise the record is sent and,
only after a successful send, `update_index(entry_index + 1)` runs.  A
failed send returns `Err` immediately. -/
def processEntries (sendOk : Nat → Bool) (lastIndex : Nat) :
    List EntryResult → Nat → Option Nat → BatchResult
  | [], _, st => ⟨[], [], st, true⟩
  | .err :: rest, offset, st => processEntries sendOk lastIndex rest (offset + 1) st
  | .ok cert :: rest, offset, st =>
    if cert.domains.isEmpty then processEntries sendOk lastIndex rest (offset + 1) st
    else if sendOk (lastIndex + offset) then
      let r := processEntries sendOk lastIndex rest (offset + 1) (some (lastIndex + offset + 1))
      ⟨(lastIndex + offset + 1) :: r.updates, (lastIndex + offset) :: r.sent, r.cursor, r.ok⟩
    else ⟨[], [], st, false⟩

/-- The per-cycle network observations consumed by `poll_once`. -/
structure PollInput where
  treeSize : Nat
  batchSize : Nat
  entries : List EntryResult
  sendOk : Nat → Bool

/-- Result of one `poll_once` call (src/ct_log/monitor.rs:109-223). -/
structure PollResult where
  cursor : Option Nat
  fetched : Option (Nat × Nat)
  updates : List Nat
  sent : List Nat
  ok : Bool

/-- `LogMonitor::poll_once` (src/ct_log/monitor.rs:109-223): read the cursor
(`unwrap_or(0)`); if it has reached `tree_size`, do nothing and return `Ok`;
otherwise request `start = cursor`, `end = min(cursor + batch_size,
tree_size) - 1` and run the entry loop on what the log returned. -/
def poll_once (st : Option Nat) (inp : PollInput) : PollResult :=
  let lastIndex := st.getD 0
  if lastIndex ≥ inp.treeSize then
    { cursor := st, fetched := none, updates := [], sent := [], ok := true }
  else
    let endIndex := min (lastIndex + inp.batchSize) inp.treeSize - 1
    let r := processEntries inp.sendOk lastIndex inp.entries 0 st
    { cursor := r.cursor
      fetched := some (lastIndex, endIndex)
      updates := r.updates
      sent := r.sent
      ok := r.ok }

/-- The number of entries `poll_once` requests (`end - start + 1`), zero when
no request is made. -/
def requestedCount (st : Option Nat) (inp : PollInput) : Nat :=
  let lastIndex := st.getD 0
  if lastIndex ≥ inp.treeSize then 0
  else min (lastIndex + inp.batchSize) inp.treeSize - lastIndex

/-- A sequence of poll cycles on one log, threading the stored cursor. -/
def runCycles (st : Option Nat) : List PollInput → Option Nat × List (List Nat)
  | [] => (st, [])
  | c :: cs =>
    let r := poll_once st c
    let rest := runCycles r.cursor cs
    (rest.1, r.updates :: rest.2)

/-- RFC 6962 conformance of the responses: each cycle's batch holds at most
the requested number of entries (a log MAY return fewer, never more). -/
def wellSized (st : Option Nat) : List PollInput → Bool
  | [] => true
  | c :: cs =>
    decide (c.entries.length ≤ requestedCount st c) && wellSized (poll_once st c).cursor cs

/-! ### Structure of the entry loop -/

theorem processEntries_updates_eq (sendOk : Nat → Bool) (lastIndex : Nat)
    (entries : List EntryResult) (offset : Nat) (st : Option Nat) :
    (processEntries sendOk lastIndex entries offset st).updates
      = (processEntries sendOk lastIndex entries offset st).sent.map (· + 1) := by
  induction entries generalizing offset st with
  | nil => simp [processEntries]
  | cons e rest ih =>
    cases e with
    | err => simpa [processEntries] using ih (offset + 1) st
    | ok cert =>
      by_cases hd : cert.domains.isEmpty = true
      · simpa [processEntries, hd] using ih (offset + 1) st
      · by_cases hs : sendOk (lastIndex + offset) = true
        · simp [processEntries, hd, hs, ih (offset + 1) (some (lastIndex + offset + 1))]
        · simp [processEntries, hd, hs]

theorem processEntries_sent_sendOk (sendOk : Nat → Bool) (lastIndex : Nat)
    (entries : List EntryResult) (offset : Nat) (st : Option Nat) :
    ∀ i ∈ (processEntries sendOk lastIndex entries offset st).sent, sendOk i = true := by
  induction entries generalizing offset st with
  | nil => simp [processEntries]
  | cons e rest ih =>
    cases e with
    | err => simpa [processEntries] using ih (offset + 1) st
    | ok cert =>
      by_cases hd : cert.domains.isEmpty = true
      · simpa [processEntries, hd] using ih (offset + 1) st
      · by_cases hs : sendOk (lastIndex + offset) = true
        · intro i hi
          simp only [processEntries, if_neg hd, if_pos hs, List.mem_cons] at hi
          rcases hi with rfl | hi
          · exact hs
          · exact ih (offset + 1) (some (lastIndex + offset + 1)) i hi
        · simp [processEntries, hd, hs]

theorem processEntries_updates_bounds (sendOk : Nat → Bool) (lastIndex : Nat)
    (entries : List EntryResult) (offset : Nat) (st : Option Nat) :
    ∀ u ∈ (processEntries sendOk lastIndex entries offset st).updates,
      lastIndex + offset < u ∧ u ≤ lastIndex + offset + entries.length := by
  induction entries generalizing offset st with
  | nil => simp [processEntries]
  | cons e rest ih =>
    cases e with
    | err =>
      intro u hu
      simp only [processEntries] at hu
      have := ih (offset + 1) st u hu
      simp only [List.length_cons]
      omega
    | ok cert =>
      by_cases hd : cert.domains.isEmpty = true
      · intro u hu
        simp only [processEntries, if_pos hd] at hu
        have := ih (offset + 1) st u hu
        simp only [List.length_cons]
        omega
      · by_cases hs : sendOk (lastIndex + offset) = true
        · intro u hu
          simp only [processEntries, if_neg hd, if_pos hs, List.mem_cons] at hu
          simp only [List.length_cons]
          rcases hu with rfl | hu
          · omega
          · have := ih (offset + 1) (some (lastIndex + offset + 1)) u hu
            omega
        · simp [processEntries, hd, hs]

theorem processEntries_cursor_mono (sendOk : Nat → Bool) (lastIndex : Nat)
    (entries : List EntryResult) (offset : Nat) (st : Option Nat)
    (hst : st.getD 0 ≤ lastIndex + offset) :
    st.getD 0 ≤ (processEntries sendOk lastIndex entries offset st).cursor.getD 0 := by
  induction entries generalizing offset st with
  | nil => simp [processEntries]
  | cons e rest ih =>
    cases e with
    | err => exact ih (offset + 1) st (by omega)
    | ok cert =>
      by_cases hd : cert.domains.isEmpty = true
      · simpa [processEntries, hd] using ih (offset + 1) st (by omega)
      · by_cases hs : sendOk (lastIndex + offset) = true
        · have h2 := ih (offset + 1) (some (lastIndex + offset + 1))
            (by simp only [Option.getD_some]; omega)
          simp only [processEntries, if_neg hd, if_pos hs]
          simp only [Option.getD_some] at h2
          omega
        · simp [processEntries, hd, hs]

theorem processEntries_updates_le_cursor (sendOk : Nat → Bool) (lastIndex : Nat)
    (entries : List EntryResult) (offset : Nat) (st : Option Nat)
    (hst : st.getD 0 ≤ lastIndex + offset) :
    ∀ u ∈ (processEntries sendOk lastIndex entries offset st).updates,
      u ≤ (processEntries sendOk lastIndex entries offset st).cursor.getD 0 := by
  induction entries generalizing offset st with
  | nil => simp [processEntries]
  | cons e rest ih =>
    cases e with
    | err => simpa [processEntries] using ih (offset + 1) st (by omega)
    | ok cert =>
      by_cases hd : cert.domains.isEmpty = true
      · simpa [processEntries, hd] using ih (offset + 1) st (by omega)
      · by_cases hs : sendOk (lastIndex + offset) = true
        · intro u hu
          have hmono := processEntries_cursor_mono sendOk lastIndex rest (offset + 1)
            (some (lastIndex + offset + 1)) (by simp only [Option.getD_some]; omega)
          simp only [Option.getD_some] at hmono
          simp only [processEntries, if_neg hd, if_pos hs, List.mem_cons] at hu ⊢
          rcases hu with rfl | hu
          · omega
          · exact ih (offset + 1) (some (lastIndex + offset + 1))
              (by simp only [Option.getD_some]; omega) u hu
        · simp [processEntries, hd, hs]

theorem processEntries_updates_chain (sendOk : Nat → Bool) (lastIndex : Nat)
    (entries : List EntryResult) (offset : Nat) (st : Option Nat) :
    List.Chain' (· < ·) (processEntries sendOk lastIndex entries offset st).updates := by
  induction entries generalizing offset st with
  | nil => simp [processEntries]
  | cons e rest ih =>
    cases e with
    | err => simpa [processEntries] using ih (offset + 1) st
    | ok cert =>
      by_cases hd : cert.domains.isEmpty = true
      · simpa [processEntries, hd] using ih (offset + 1) st
      · by_cases hs : sendOk (lastIndex + offset) = true
        · simp only [processEntries, if_neg hd, if_pos hs]
          refine List.chain'_cons'.mpr ⟨?_, ih (offset + 1) (some (lastIndex + offset + 1))⟩
          intro y hy
          have hmem := List.mem_of_mem_head? hy
          have := processEntries_updates_bounds sendOk lastIndex rest (offset + 1)
            (some (lastIndex + offset + 1)) y hmem
          omega
        · simp [processEntries, hd, hs]

theorem processEntries_fail (sendOk : Nat → Bool) (lastIndex : Nat)
    (entries : List EntryResult) (offset : Nat) (st : Option Nat)
    (hfail : (processEntries sendOk lastIndex entries offset st).ok = false) :
    ∃ i, lastIndex + offset ≤ i ∧ sendOk i = false ∧
      ∀ u ∈ (processEntries sendOk lastIndex entries offset st).updates, u ≤ i := by
  induction entries generalizing offset st with
  | nil => simp [processEntries] at hfail
  | cons e rest ih =>
    cases e with
    | err =>
      simp only [processEntries] at hfail ⊢
      obtain ⟨i, hi1, hi2, hi3⟩ := ih (offset + 1) st hfail
      exact ⟨i, by omega, hi2, hi3⟩
    | ok cert =>
      by_cases hd : cert.domains.isEmpty = true
      · simp only [processEntries, if_pos hd] at hfail ⊢
        obtain ⟨i, hi1, hi2, hi3⟩ := ih (offset + 1) st hfail
        exact ⟨i, by omega, hi2, hi3⟩
      · by_cases hs : sendOk (lastIndex + offset) = true
        · simp only [processEntries, if_neg hd, if_pos hs] at hfail ⊢
          obtain ⟨i, hi1, hi2, hi3⟩ :=
            ih (offset + 1) (some (lastIndex + offset + 1)) hfail
          refine ⟨i, by omega, hi2, ?_⟩
          intro u hu
          rcases List.mem_cons.mp hu with rfl | hu
          · omega
          · exact hi3 u hu
        · refine ⟨lastIndex + offset, le_refl _, by simpa using hs, ?_⟩
          simp [processEntries, hd, hs]

theorem processEntries_cursor_shape (sendOk : Nat → Bool) (lastIndex : Nat)
    (entries : List EntryResult) (offset : Nat) (st : Option Nat) :
    (processEntries sendOk lastIndex entries offset st).cursor = st ∨
    ∃ u ∈ (processEntries sendOk lastIndex entries offset st).updates,
      (processEntries sendOk lastIndex entries offset st).cursor = some u := by
  induction entries generalizing offset st with
  | nil => exact Or.inl rfl
  | cons e rest ih =>
    cases e with
    | err => simpa [processEntries] using ih (offset + 1) st
    | ok cert =>
      by_cases hd : cert.domains.isEmpty = true
      · simpa [processEntries, hd] using ih (offset + 1) st
      · by_cases hs : sendOk (lastIndex + offset) = true
        · simp only [processEntries, if_neg hd, if_pos hs]
          rcases ih (offset + 1) (some (lastIndex + offset + 1)) with hcur | ⟨u, hu, hcur⟩
          · exact Or.inr ⟨lastIndex + offset + 1, List.mem_cons_self _ _, hcur⟩
          · exact Or.inr ⟨u, List.mem_cons_of_mem _ hu, hcur⟩
        · simp [processEntries, hd, hs]

theorem processEntries_cursor_law (sendOk : Nat → Bool) (lastIndex : Nat)
    (entries : List EntryResult) (offset : Nat) (st : Option Nat) :
    (processEntries sendOk lastIndex entries offset st).cursor
      = match (processEntries sendOk lastIndex entries offset st).sent.getLast? with
        | some j => some (j + 1)
        | none => st := by
  induction entries generalizing offset st with
  | nil => simp [processEntries]
  | cons e rest ih =>
    cases e with
    | err => simpa [processEntries] using ih (offset + 1) st
    | ok cert =>
      by_cases hd : cert.domains.isEmpty = true
      · simpa [processEntries, hd] using ih (offset + 1) st
      · by_cases hs : sendOk (lastIndex + offset) = true
        · simp only [processEntries, if_neg hd, if_pos hs]
          have h2 := ih (offset + 1) (some (lastIndex + offset + 1))
          cases hsent : (processEntries sendOk lastIndex rest (offset + 1)
              (some (lastIndex + offset + 1))).sent with
          | nil =>
            rw [hsent] at h2
            simpa [hsent] using h2
          | cons b l =>
            rw [hsent] at h2
            simpa [hsent, List.getLast?_cons_cons] using h2
        · simp [processEntries, hd, hs]

/-! ### Poll-level facts -/

theorem poll_once_updates_chain (st : Option Nat) (inp : PollInput) :
    List.Chain' (· < ·) (poll_once st inp).updates := by
  by_cases hge : st.getD 0 ≥ inp.treeSize
  · simp [poll_once, hge]
  · simp only [poll_once, if_neg hge]
    exact processEntries_updates_chain inp.sendOk (st.getD 0) inp.entries 0 st

theorem poll_once_updates_gt (st : Option Nat) (inp : PollInput) :
    ∀ u ∈ (poll_once st inp).updates, st.getD 0 < u := by
  by_cases hge : st.getD 0 ≥ inp.treeSize
  · simp [poll_once, hge]
  · simp only [poll_once, if_neg hge]
    intro u hu
    have := processEntries_updates_bounds inp.sendOk (st.getD 0) inp.entries 0 st u hu
    omega

theorem poll_once_updates_le_cursor (st : Option Nat) (inp : PollInput) :
    ∀ u ∈ (poll_once st inp).updates, u ≤ (poll_once st inp).cursor.getD 0 := by
  by_cases hge : st.getD 0 ≥ inp.treeSize
  · simp [poll_once, hge]
  · simp only [poll_once, if_neg hge]
    exact processEntries_updates_le_cursor inp.sendOk (st.getD 0) inp.entries 0 st (by omega)

theorem poll_once_cursor_mono (st : Option Nat) (inp : PollInput) :
    st.getD 0 ≤ (poll_once st inp).cursor.getD 0 := by
  by_cases hge : st.getD 0 ≥ inp.treeSize
  · simp [poll_once, hge]
  · simp only [poll_once, if_neg hge]
    exact processEntries_cursor_mono inp.sendOk (st.getD 0) inp.entries 0 st (by omega)

theorem poll_once_updates_le_tree (st : Option Nat) (inp : PollInput)
    (h : inp.entries.length ≤ requestedCount st inp) :
    ∀ u ∈ (poll_once st inp).updates, u ≤ inp.treeSize := by
  by_cases hge : st.getD 0 ≥ inp.treeSize
  · simp [poll_once, hge]
  · simp only [poll_once, if_neg hge]
    intro u hu
    have hb := processEntries_updates_bounds inp.sendOk (st.getD 0) inp.entries 0 st u hu
    simp only [requestedCount, if_neg hge] at h
    omega

/-- C6: if the cursor has reached the reported tree size, no entry range is
requested and the poll ends in `Ok` with the cursor untouched (the run loop
then sleeps); otherwise the requested range is `start = cursor`,
`end = min(cursor + batch_size, tree_size) - 1`; the two S3 instances follow:
cursor 1000 / tree 1050 / batch 256 requests 1000..1049, and cursor 1050 /
tree 1050 requests nothing. -/
theorem range_selection :
    (∀ (st : Option Nat) (inp : PollInput), st.getD 0 ≥ inp.treeSize →
      (poll_once st inp).fetched = none ∧ (poll_once st inp).ok = true ∧
      (poll_once st inp).cursor = st) ∧
    (∀ (st : Option Nat) (inp : PollInput), st.getD 0 < inp.treeSize →
      (poll_once st inp).fetched
        = some (st.getD 0, min (st.getD 0 + inp.batchSize) inp.treeSize - 1)) ∧
    (∀ (entries : List EntryResult) (sendOk : Nat → Bool),
      (poll_once (some 1000) ⟨1050, 256, entries, sendOk⟩).fetched = some (1000, 1049)) ∧
    (∀ (entries : List EntryResult) (sendOk : Nat → Bool),
      (poll_once (some 1050) ⟨1050, 256, entries, sendOk⟩).fetched = none) := by
  refine ⟨?_, ?_, ?_, ?_⟩
  · intro st inp h
    simp [poll_once, h]
  · intro st inp h
    simp [poll_once, Nat.not_le.mpr h]
  · intro entries sendOk
    have h : ¬((some 1000 : Option Nat).getD 0 ≥ (1050 : Nat)) := by simp
    simp only [poll_once, if_neg h]
    norm_num
  · intro entries sendOk
    simp [poll_once]

/-- Witness for C6 at the two S3 instances. -/
theorem range_selection_witness :
    (poll_once (some 1050) ⟨1050, 256, [], fun _ => true⟩).fetched = none ∧
    (poll_once (some 1000) ⟨1050, 256, [], fun _ => true⟩).fetched = some (1000, 1049) := by
  constructor
  · exact (range_selection.1 (some 1050) ⟨1050, 256, [], fun _ => true⟩ (by decide)).1
  · exact range_selection.2.2.1 [] (fun _ => true)

/-- Definitions used by the C5 witness: a batch with one sendable entry and a
closed queue. -/
def sendFailInput : PollInput :=
  ⟨7, 2, [EntryResult.ok ⟨["a.example"], none, none, "f", none, false⟩], fun _ => false⟩

/-- C5: each cursor update is `i + 1` for an entry index `i` whose send
returned successfully (updates are exactly the successors of the accepted
indices, in order, and accepted indices had successful sends); and when a
send fails, `poll_once` returns `Err` with the cursor not advanced to the
failed entry's successor — nor past it. -/
theorem cursor_advance_requires_send :
    (∀ (st : Option Nat) (inp : PollInput),
      (poll_once st inp).updates = (poll_once st inp).sent.map (· + 1)) ∧
    (∀ (st : Option Nat) (inp : PollInput) (i : Nat), i ∈ (poll_once st inp).sent →
      inp.sendOk i = true) ∧
    (∀ (st : Option Nat) (inp : PollInput), (poll_once st inp).ok = false →
      ∃ i, inp.sendOk i = false ∧ (∀ u ∈ (poll_once st inp).updates, u ≤ i) ∧
        (poll_once st inp).cursor ≠ some (i + 1)) := by
  refine ⟨?_, ?_, ?_⟩
  · intro st inp
    by_cases hge : st.getD 0 ≥ inp.treeSize
    · simp [poll_once, hge]
    · simp only [poll_once, if_neg hge]
      exact processEntries_updates_eq inp.sendOk (st.getD 0) inp.entries 0 st
  · intro st inp i hi
    by_cases hge : st.getD 0 ≥ inp.treeSize
    · simp [poll_once, hge] at hi
    · simp only [poll_once, if_neg hge] at hi
      exact processEntries_sent_sendOk inp.sendOk (st.getD 0) inp.entries 0 st i hi
  · intro st inp hfail
    by_cases hge : st.getD 0 ≥ inp.treeSize
    · simp [poll_once, hge] at hfail
    · simp only [poll_once, if_neg hge] at hfail ⊢
      obtain ⟨i, hge2, hsend, hbound⟩ :=
        processEntries_fail inp.sendOk (st.getD 0) inp.entries 0 st hfail
      refine ⟨i, hsend, hbound, ?_⟩
      rcases processEntries_cursor_shape inp.sendOk (st.getD 0) inp.entries 0 st with
        hcur | ⟨u, hu, hcur⟩
      · rw [hcur]
        intro habs
        have : st.getD 0 = i + 1 := by rw [habs]; rfl
        omega
      · rw [hcur]
        intro habs
        have hui : u ≤ i := hbound u hu
        have : u = i + 1 := by injection habs
        omega

/-- Witness for C5: with a closed queue the poll fails and the cursor stays
behind the failed entry. -/
theorem cursor_advance_requires_send_witness :
    ∃ i, sendFailInput.sendOk i = false ∧
      (∀ u ∈ (poll_once (some 5) sendFailInput).updates, u ≤ i) ∧
      (poll_once (some 5) sendFailInput).cursor ≠ some (i + 1) :=
  cursor_advance_requires_send.2.2 (some 5) sendFailInput (by decide)

/-- C2 counterexample: a batch whose single (here: trailing) entry fails to
decode — the entry is skipped and the poll returns Ok, but the cursor is NOT
advanced past the failed entry: it stays at 5 rather than moving to 6, and
no `update_index` call is made. -/
theorem trailing_malformed_entry_cex :
    (poll_once (some 5) ⟨6, 1, [EntryResult.err], fun _ => true⟩).cursor = some 5 ∧
    (poll_once (some 5) ⟨6, 1, [EntryResult.err], fun _ => true⟩).updates = [] ∧
    (poll_once (some 5) ⟨6, 1, [EntryResult.err], fun _ => true⟩).ok = true := by decide

/-- C2 (amended): entries of a batch are processed in order and a decode
failure is skipped without aborting the loop or issuing its own cursor
update; the cursor ends at the successor of the last successfully sent entry
(unchanged when nothing was sent), so it moves past a failed entry exactly
when a later entry of the batch is sent.  In particular, in a three-entry
batch whose middle entry is malformed (queue accepting), the outer entries
are sent in order and the cursor advances by 3. -/
theorem batch_skip_malformed_amended :
    (∀ (st : Option Nat) (inp : PollInput),
      (poll_once st inp).cursor
        = match (poll_once st inp).sent.getLast? with
          | some j => some (j + 1)
          | none => st) ∧
    (∀ (cur : Nat) (inp : PollInput) (c1 c2 : ParsedCert),
      inp.entries = [.ok c1, .err, .ok c2] →
      c1.domains ≠ [] → c2.domains ≠ [] →
      (∀ i, inp.sendOk i = true) →
      cur < inp.treeSize →
      (poll_once (some cur) inp).sent = [cur, cur + 2] ∧
      (poll_once (some cur) inp).updates = [cur + 1, cur + 3] ∧
      (poll_once (some cur) inp).cursor = some (cur + 3) ∧
      (poll_once (some cur) inp).ok = true) := by
  constructor
  · intro st inp
    by_cases hge : st.getD 0 ≥ inp.treeSize
    · simp [poll_once, hge]
    · simp only [poll_once, if_neg hge]
      exact processEntries_cursor_law inp.sendOk (st.getD 0) inp.entries 0 st
  · intro cur inp c1 c2 hE h1 h2 hS htree
    have hne1 : c1.domains.isEmpty = false := by
      cases hc : c1.domains
      · exact absurd hc h1
      · rfl
    have hne2 : c2.domains.isEmpty = false := by
      cases hc : c2.domains
      · exact absurd hc h2
      · rfl
    have hge : ¬((some cur : Option Nat).getD 0 ≥ inp.treeSize) := by
      simp only [Option.getD_some]
      omega
    simp only [poll_once, if_neg hge, Option.getD_some]
    rw [hE]
    simp [processEntries, hne1, hne2, hS, Nat.not_le.mpr htree]

/-- Witness for C2 at the S6 scenario with concrete certificates. -/
theorem batch_skip_malformed_amended_witness :
    (poll_once (some 5)
      ⟨9, 3, [.ok ⟨["a.example"], none, none, "f1", none, false⟩, .err,
              .ok ⟨["b.example"], none, none, "f2", none, false⟩], fun _ => true⟩).updates
      = [6, 8] ∧
    (poll_once (some 5)
      ⟨9, 3, [.ok ⟨["a.example"], none, none, "f1", none, false⟩, .err,
              .ok ⟨["b.example"], none, none, "f2", none, false⟩], fun _ => true⟩).cursor
      = some 8 := by
  have h := batch_skip_malformed_amended.2 5
    ⟨9, 3, [.ok ⟨["a.example"], none, none, "f1", none, false⟩, .err,
            .ok ⟨["b.example"], none, none, "f2", none, false⟩], fun _ => true⟩
    ⟨["a.example"], none, none, "f1", none, false⟩
    ⟨["b.example"], none, none, "f2", none, false⟩
    rfl (by decide) (by decide) (fun _ => rfl) (by decide)
  exact ⟨h.2.1, h.2.2.1⟩

/-- C9: over any sequence of poll cycles whose responses are RFC-conformant
(each batch holds at most the requested number of entries), the stored cursor
values form a non-decreasing sequence, every value stored during a cycle is
at most that cycle's reported tree size, the final cursor is at least the
initial one, and every stored value exceeds the initial cursor. -/
theorem cursor_monotone_bounded :
    ∀ (st : Option Nat) (cycles : List PollInput), wellSized st cycles = true →
      List.Chain' (· ≤ ·) (runCycles st cycles).2.flatten ∧
      List.Forall₂ (fun us c => ∀ u ∈ us, u ≤ c.treeSize) (runCycles st cycles).2 cycles ∧
      st.getD 0 ≤ (runCycles st cycles).1.getD 0 ∧
      (∀ u ∈ (runCycles st cycles).2.flatten, st.getD 0 < u) := by
  intro st cycles
  induction cycles generalizing st with
  | nil =>
    intro _
    simp [runCycles]
  | cons c cs ih =>
    intro hws
    simp only [wellSized, Bool.and_eq_true, decide_eq_true_eq] at hws
    obtain ⟨hlen, hws2⟩ := hws
    obtain ⟨hA, hC, hD, hB⟩ := ih (poll_once st c).cursor hws2
    simp only [runCycles, List.flatten_cons]
    refine ⟨?_, ?_, ?_, ?_⟩
    · refine List.Chain'.append
        ((poll_once_updates_chain st c).imp fun _ _ hab => le_of_lt hab) hA ?_
      intro x hx y hy
      have hx2 := poll_once_updates_le_cursor st c x (List.mem_of_mem_getLast? hx)
      have hy2 := hB y (List.mem_of_mem_head? hy)
      omega
    · exact List.Forall₂.cons (poll_once_updates_le_tree st c hlen) hC
    · have := poll_once_cursor_mono st c
      omega
    · intro u hu
      rcases List.mem_append.mp hu with hu | hu
      · exact poll_once_updates_gt st c u hu
      · have h1 := hB u hu
        have h2 := poll_once_cursor_mono st c
        omega

/-- Witness for C9: a two-cycle run from an empty cursor. -/
theorem cursor_monotone_bounded_witness :
    List.Chain' (· ≤ ·)
      (runCycles none
        [⟨2, 4, [.ok ⟨["a.example"], none, none, "f1", none, false⟩,
                 .ok ⟨["b.example"], none, none, "f2", none, false⟩], fun _ => true⟩,
         ⟨3, 4, [.ok ⟨["c.example"], none, none, "f3", none, false⟩], fun _ => true⟩]).2.flatten :=
  (cursor_monotone_bounded none
    [⟨2, 4, [.ok ⟨["a.example"], none, none, "f1", none, false⟩,
             .ok ⟨["b.example"], none, none, "f2", none, false⟩], fun _ => true⟩,
     ⟨3, 4, [.ok ⟨["c.example"], none, none, "f3", none, false⟩], fun _ => true⟩]
    (by decide)).1

/-! ## Sink fan-out (`src/output/mod.rs`)

A registered handler is represented by the outcome its `emit_match` returns
for the record in question: `none` is `Ok`, `some e` is `Err(e)`. -/

/-- One iteration of the fan-out loop (src/output/mod.rs:52-57): record the
call and, on failure, overwrite `last_error`. -/
def emitStep (acc : List Nat × Option String) (p : Nat × Option String) :
    List Nat × Option String :=
  (acc.1 ++ [p.1], match p.2 with | some e => some e | none => acc.2)

/-- The fan-out loop over all handlers in registration order: the sequence of
handler indices called, and the final `last_error`. -/
def emitTrace (outcomes : List (Option String)) : List Nat × Option String :=
  outcomes.enum.foldl emitStep ([], none)

/-- `OutputManager::emit` (src/output/mod.rs:49-67): run the loop, then
return the last error only when there is exactly one registered handler. -/
def OutputManager.emit (outcomes : List (Option String)) : Option String :=
  match (emitTrace outcomes).2 with
  | some e => if outcomes.length == 1 then some e else none
  | none => none

theorem emitTrace_foldl_calls (ps : List (Nat × Option String))
    (acc : List Nat × Option String) :
    (ps.foldl emitStep acc).1 = acc.1 ++ ps.map Prod.fst := by
  induction ps generalizing acc with
  | nil => simp
  | cons p ps ih =>
    simp only [List.foldl_cons, ih, List.map_cons]
    simp [emitStep]

/-- C7: the fan-out calls every registered sink in registration order — an
individual failure never prevents later sinks from receiving the record —
and the overall `emit` returns an error only if every registered sink failed
(the code propagates the last error only when the failing sink is the only
registered one). -/
theorem sink_fanout_policy :
    (∀ outcomes : List (Option String),
      (emitTrace outcomes).1 = List.range outcomes.length) ∧
    (∀ (outcomes : List (Option String)) (e : String),
      OutputManager.emit outcomes = some e → ∀ o ∈ outcomes, o.isSome = true) := by
  constructor
  · intro outcomes
    rw [emitTrace, emitTrace_foldl_calls, List.enum_map_fst]
    rfl
  · intro outcomes e hemit o ho
    unfold OutputManager.emit at hemit
    cases hL : (emitTrace outcomes).2 with
    | none => simp [hL] at hemit
    | some e2 =>
      simp only [hL] at hemit
      by_cases hlen : outcomes.length == 1
      · obtain ⟨a, rfl⟩ := List.length_eq_one.mp (by simpa using hlen)
        have : o = a := by simpa using ho
        subst this
        cases o with
        | none => simp [emitTrace, emitStep] at hL
        | some x => rfl
      · rw [if_neg hlen] at hemit
        exact absurd hemit (by simp)

/-- Witness for C7: a two-sink trace calls both in order, and a sole failing
sink makes the overall emit fail with every sink having failed. -/
theorem sink_fanout_policy_witness :
    (emitTrace [some "boom", none]).1 = List.range 2 ∧
    (some "boom" : Option String).isSome = true :=
  ⟨sink_fanout_policy.1 [some "boom", none],
   sink_fanout_policy.2 [some "boom"] "boom" rfl (some "boom") (by decide)⟩

/-! ## Model validation against the source's own unit tests -/

/-- The backoff table of health.rs's `test_backoff_calculation`: counts 1, 3
and 20 give 60 s, 240 s and 3600 s. -/
theorem next_backoff_matches_source_tests :
    LogHealthInfo.next_backoff { LogHealthInfo.new with failure_count := 1 } = 60 ∧
    LogHealthInfo.next_backoff { LogHealthInfo.new with failure_count := 3 } = 240 ∧
    LogHealthInfo.next_backoff { LogHealthInfo.new with failure_count := 20 } = 3600 := by
  decide

/-- The S1 matcher rows that exercise `matches_pattern` directly. -/
theorem matches_pattern_matches_source_tests :
    Watchlist.matches_pattern (str "www.ibm.com") (str "*.ibm.com") = true ∧
    Watchlist.matches_pattern (str "ibm.com") (str "*.ibm.com") = false ∧
    Watchlist.matches_pattern (str "hilton.com") (str ".hilton.com") = true ∧
    Watchlist.matches_pattern (str "api.hotels.hilton.com") (str ".hilton.com") = true ∧
    Watchlist.matches_pattern (str "example.com") (str "example.com") = true ∧
    Watchlist.matches_pattern (str "www.example.com") (str "example.com") = true := by
  decide

